import Mathlib

/-!
Verification development for the wizard-builder repository.

This file shallowly embeds the core runtime components:
* the restricted JSONPath-style resolver of
  `apps/runtime-ui/src/runtime/jsonpath/index.ts`
  (`validatePath`, `getJsonPath`, `setJsonPath`),
* the SDK dot-path helpers of `packages/sdk/src/jsonpath`
  (`getByPath`, `setByPath`),
* the condition evaluator of `packages/sdk` (`evaluateCondition`,
  `evaluateSimpleCondition`, `evaluateCompoundCondition`),
* the wizard session store (`goToStep`, `goNext`, `goBack`,
  `applyStateUpdates`) and the linear router (`getNextStepIdLinear`),
* the page-reference notation (`parsePageRef`),
* a heap-level rendering of `setJsonPath` used to settle the claim that
  `set` never mutates its input, and
* a model of the publish pipeline's version assignment (the server-side
  implementation is not part of the sources; it is modelled from the spec).

JavaScript values are modelled by `JsonValue`; objects are association
lists of string keys in insertion order (JS objects hold no duplicate
keys, but the definitions below are stated for arbitrary lists).
Numbers are modelled by `Int`; no claim here depends on non-integral or
NaN behaviour.
-/

namespace VSB

/-- A JavaScript/JSON runtime value.  `undefined` models the JS value of that name, which the
path helpers use as their absence marker.  Objects are insertion-ordered
association lists; arrays are element lists. -/
inductive JsonValue where
  | null
  | undefined
  | bool (b : Bool)
  | num (n : Int)
  | str (s : String)
  | arr (elems : List JsonValue)
  | obj (fields : List (String × JsonValue))

/-- First-match association-list lookup (JS own-property read). -/
def lookupKV {α β : Type} [DecidableEq α] : List (α × β) → α → Option β
  | [], _ => none
  | (k', v') :: rest, k => if k' = k then some v' else lookupKV rest k

/-- JS property assignment `o[k] = v` on a plain object: replace the
(first) binding if the key is present, otherwise append it — JS objects
hold each key at most once, so first-match replacement is exactly the
in-place update that preserves insertion order. -/
def insertKV {α β : Type} [DecidableEq α] : List (α × β) → α → β → List (α × β)
  | [], k, v => [ (k, v) ]
  | e :: rest, k, v => if e.1 = k then (k, v) :: rest else e :: insertKV rest k v

/-- Here `listStartsWith sub s` holds when `sub` is a leading segment of `s`
(the character-level reading of JS `String.prototype.startsWith`). -/
def listStartsWith : List Char → List Char → Bool
  | [], _ => true
  | _ :: _, [] => false
  | a :: as, b :: bs => a == b && listStartsWith as bs

/-- Here `listContainsSeq sub s` holds when `sub` occurs contiguously in `s`
(the character-level reading of JS `String.prototype.includes`). -/
def listContainsSeq (sub : List Char) : List Char → Bool
  | [] => sub.isEmpty
  | c :: rest => listStartsWith sub (c :: rest) || listContainsSeq sub rest

/-- One pass of JS `String.prototype.split` with a single-character
separator: accumulate the current piece, cut at each separator. -/
def splitOnAux (sep : Char) : List Char → List Char → List (List Char)
  | [], acc => [ acc ]
  | c :: rest, acc =>
      if c == sep then acc :: splitOnAux sep rest []
      else splitOnAux sep rest (acc ++ [ c ])

/-- JS `path.split(sep)` for a one-character separator. -/
def splitOnChar (sep : Char) (s : List Char) : List String :=
  (splitOnAux sep s []).map (fun l => String.mk l)

/-- The reserved keys rejected by `validatePath`
(`jsonpath/index.ts`, `dangerousKeys`). -/
def dangerousKeys : List String := [ "__proto__", "constructor", "prototype" ]

/-- The character class of the source regex `/[[\]()*]/` used to reject
array and wildcard syntax. -/
def hasBadChar (path : String) : Bool :=
  path.data.any (fun c => c == '[' || c == ']' || c == '(' || c == ')' || c == '*')

/-- Model of `path.replace(/^\$\./, '')`: strip one leading `$.` if present. -/
def stripDollar (path : String) : List Char :=
  if listStartsWith [ '$', '.' ] path.data then path.data.drop 2 else path.data

/-- The dot-segments the runtime resolver operates on. -/
def pathParts (path : String) : List String :=
  splitOnChar '.' (stripDollar path)

/-- Model of `validatePath` from `jsonpath/index.ts`: enforce the `$`/`$.` sentinel,
reject `[ ] ( ) *`, reject `..`, and reject any reserved segment.  A
thrown `Error` is modelled as `Except.error` with the message text. -/
def validatePath (path : String) : Except String Unit :=
  if path != "$" && !(listStartsWith [ '$', '.' ] path.data) then
    .error "Path must start with dollar or dollar-dot"
  else if hasBadChar path then
    .error "Array and wildcard syntax not supported in paths"
  else if listContainsSeq [ '.', '.' ] path.data then
    .error "Parent traversal not allowed in paths"
  else if (pathParts path).any (fun part => dangerousKeys.contains part) then
    .error "Dangerous key not allowed in paths"
  else
    .ok ()

/-- Model of `current === null || current === undefined`. -/
def isNullOrUndefined : JsonValue → Bool
  | .null => true
  | .undefined => true
  | _ => false

/-- Model of `typeof x === 'object'` (true for objects, arrays and `null`). -/
def typeofIsObject : JsonValue → Bool
  | .obj _ => true
  | .arr _ => true
  | .null => true
  | _ => false

/-- JS property read `current[part]` on a value, restricted to own
properties: object key lookup, array `length`/canonical index, string
`length`/character index; everything else yields `undefined`.
(Prototype-chain reads are not modelled; `validatePath` rejects the
reserved prototype keys before any read.) -/
def jsGetProp : JsonValue → String → JsonValue
  | .obj m, k => (lookupKV m k).getD .undefined
  | .arr l, k =>
      if k == "length" then .num l.length
      else
        match k.toNat? with
        | some i => if toString i == k then (l.get? i).getD .undefined else .undefined
        | none => .undefined
  | .str s, k =>
      if k == "length" then .num s.length
      else
        match k.toNat? with
        | some i =>
            if toString i == k then
              match s.data.get? i with
              | some c => .str (String.mk [ c ])
              | none => .undefined
            else .undefined
        | none => .undefined
  | _, _ => .undefined

/-- The traversal loop of `getJsonPath`: before each access, a `null` or
`undefined` current value short-circuits to `undefined`. -/
def getParts : JsonValue → List String → JsonValue
  | v, [] => v
  | v, part :: rest =>
      if isNullOrUndefined v then .undefined else getParts (jsGetProp v part) rest

/-- Model of `getJsonPath` from `jsonpath/index.ts`. -/
def getJsonPath (o : JsonValue) (path : String) : Except String JsonValue :=
  if path == "" || path == "$" then .ok o
  else
    match validatePath path with
    | .error e => .error e
    | .ok _ => .ok (getParts o (pathParts path))

/-- JS object spread `{...x}`: objects copy their fields, arrays become
index-keyed objects, strings become character-keyed objects, and all
other values (including `null` and `undefined`) spread to `{}`. -/
def spreadFields : JsonValue → List (String × JsonValue)
  | .obj m => m
  | .arr l => l.enum.map (fun e => (toString e.1, e.2))
  | .str s => s.data.enum.map (fun e => (toString e.1, JsonValue.str (String.mk [ e.2 ])))
  | _ => []

/-- The intermediate node prepared by the `set` loops: a present child of
`typeof 'object'` is shallow-copied by spread (so `null` spreads to `{}`),
anything missing or non-object is replaced by `{}`.  This captures both
source conditions (`!(part in current) || typeof current[part] !== 'object'`
in `jsonpath/index.ts` and `current[part] === undefined || typeof
current[part] !== 'object'` in the SDK helper): a present key holding
`undefined` fails the `typeof` test in the former and the `undefined` test
in the latter, with the same `{}` outcome. -/
def childFields (fields : List (String × JsonValue)) (part : String) : List (String × JsonValue) :=
  match lookupKV fields part with
  | some child => if typeofIsObject child then spreadFields child else []
  | none => []

/-- The mutation loop shared by `setJsonPath` and `setByPath`, rendered
functionally: walk all segments but the last, copying or creating each
intermediate object, then assign the last segment. -/
def setParts (fields : List (String × JsonValue)) : List String → JsonValue → List (String × JsonValue)
  | [], _ => fields
  | [ last ], v => insertKV fields last v
  | part :: p2 :: rest, v =>
      insertKV fields part (.obj (setParts (childFields fields part) (p2 :: rest) v))

/-- Model of `setJsonPath` from `jsonpath/index.ts`.  For `''` or `'$'` the value
itself is returned; otherwise the path is validated, the root is
shallow-copied and the segment loop runs. -/
def setJsonPath (o : JsonValue) (path : String) (v : JsonValue) : Except String JsonValue :=
  if path == "" || path == "$" then .ok v
  else
    match validatePath path with
    | .error e => .error e
    | .ok _ => .ok (.obj (setParts (spreadFields o) (pathParts path) v))

/-- The traversal loop of the SDK `getByPath`
(`packages/sdk/src/jsonpath`): unlike `getJsonPath`, a non-object current
value (primitive string/number/boolean) also short-circuits to
`undefined`. -/
def getByPathVal : JsonValue → List String → JsonValue
  | v, [] => v
  | v, part :: rest =>
      if isNullOrUndefined v then .undefined
      else if !(typeofIsObject v) then .undefined
      else getByPathVal (jsGetProp v part) rest

/-- The SDK `getByPath`: bare dot-paths, no sentinel, no validation. -/
def getByPath (o : List (String × JsonValue)) (path : String) : JsonValue :=
  if path == "" then .undefined
  else getByPathVal (.obj o) (splitOnChar '.' path.data)

/-- The SDK `setByPath`: bare dot-paths, no sentinel, no validation; the
loop body is the same copy-on-write walk as `setJsonPath` (see
`childFields` for the equivalence of the two branch conditions). -/
def setByPath (o : List (String × JsonValue)) (path : String) (v : JsonValue) : List (String × JsonValue) :=
  if path == "" then o
  else setParts o (splitOnChar '.' path.data) v

/-- A condition document (`packages/sdk/src/types/condition.ts`).  The
source discriminates the union at runtime by field presence
(`isSimpleCondition` / `isCompoundCondition`); `logic` and `operator` are
kept as raw strings because the evaluator dispatches on their runtime
value and defaults to `false` on anything unrecognized. -/
inductive Condition where
  | simple (field : String) (operator : String) (value : JsonValue)
  | compound (logic : String) (conditions : List Condition)

/-- JS strict equality `===` restricted to the values that can meet in
`evaluateSimpleCondition`: value equality on primitives.  Two objects or
arrays compare `false`: the field value (from session state) and the
comparison value (from the condition literal) are distinct references in
the source. -/
def jsStrictEq : JsonValue → JsonValue → Bool
  | .null, .null => true
  | .undefined, .undefined => true
  | .bool a, .bool b => a == b
  | .num a, .num b => a == b
  | .str a, .str b => a == b
  | _, _ => false

/-- Model of `fieldValue === undefined || fieldValue === null || fieldValue === ''`
(the `empty` operator; `notEmpty` is its pointwise negation). -/
def isEmptyVal : JsonValue → Bool
  | .undefined => true
  | .null => true
  | .str s => s == ""
  | _ => false

/-- Model of `evaluateSimpleCondition` from the SDK validation module: resolve the
field via `getByPath`, then dispatch on the operator string.  Regular
expressions are not modelled structurally: the `matches` arm consults the
parameter `rt`, where `rt pattern = none` stands for `new RegExp(pattern)`
throwing (the `catch` yields `false`) and `rt pattern = some f` stands for
`f` being the compiled `test`. -/
def evaluateSimpleCondition (rt : String → Option (String → Bool))
    (field operator : String) (value : JsonValue)
    (data : List (String × JsonValue)) : Bool :=
  let fieldValue := getByPath data field
  match operator with
  | "eq" => jsStrictEq fieldValue value
  | "neq" => !(jsStrictEq fieldValue value)
  | "gt" =>
      match fieldValue, value with
      | .num a, .num b => decide (a > b)
      | _, _ => false
  | "gte" =>
      match fieldValue, value with
      | .num a, .num b => decide (a ≥ b)
      | _, _ => false
  | "lt" =>
      match fieldValue, value with
      | .num a, .num b => decide (a < b)
      | _, _ => false
  | "lte" =>
      match fieldValue, value with
      | .num a, .num b => decide (a ≤ b)
      | _, _ => false
  | "contains" =>
      match fieldValue, value with
      | .str a, .str b => listContainsSeq b.data a.data
      | _, _ => false
  | "notContains" =>
      match fieldValue, value with
      | .str a, .str b => !(listContainsSeq b.data a.data)
      | _, _ => true
  | "startsWith" =>
      match fieldValue, value with
      | .str a, .str b => listStartsWith b.data a.data
      | _, _ => false
  | "endsWith" =>
      match fieldValue, value with
      | .str a, .str b => listStartsWith b.data.reverse a.data.reverse
      | _, _ => false
  | "in" =>
      match value with
      | .arr l => l.any (fun x => jsStrictEq x fieldValue)
      | _ => false
  | "notIn" =>
      match value with
      | .arr l => !(l.any (fun x => jsStrictEq x fieldValue))
      | _ => true
  | "empty" => isEmptyVal fieldValue
  | "notEmpty" => !(isEmptyVal fieldValue)
  | "matches" =>
      match fieldValue, value with
      | .str a, .str b =>
          match rt b with
          | some f => f a
          | none => false
      | _, _ => false
  | _ => false

mutual

/-- Model of `evaluateCondition`: dispatch on the union shape.  (An object that is
neither shape evaluates to `false` in the source; the inductive type makes
that branch unrepresentable.) -/
def evaluateCondition (rt : String → Option (String → Bool))
    (c : Condition) (data : List (String × JsonValue)) : Bool :=
  match c with
  | .simple field operator value => evaluateSimpleCondition rt field operator value data
  | .compound logic conditions => evaluateCompoundCondition rt logic conditions data

/-- Model of `evaluateCompoundCondition`: evaluate all children in order, then
reduce with `every` for `and`, `some` for `or`, `false` otherwise. -/
def evaluateCompoundCondition (rt : String → Option (String → Bool))
    (logic : String) (conditions : List Condition)
    (data : List (String × JsonValue)) : Bool :=
  let results := evalConditionList rt conditions data
  if logic == "and" then results.all (fun r => r)
  else if logic == "or" then results.any (fun r => r)
  else false

/-- Model of `conditions.map((c) => evaluateCondition(c, data))`. -/
def evalConditionList (rt : String → Option (String → Bool)) :
    List Condition → List (String × JsonValue) → List Bool
  | [], _ => []
  | c :: rest, data => evaluateCondition rt c data :: evalConditionList rt rest data

end

/-- A wizard step (`runtime/routing/getNextStepId.ts`).  Only `id` takes
part in routing; `title`, `pageRef`, `fields` and the future `next` rules
are presentational and carried nowhere in the routed logic. -/
structure WizardStep where
  id : String

/-- Model of `getNextStepIdLinear`: next step in declaration order, `none` when the
current id is absent or last. -/
def getNextStepIdLinear (steps : List WizardStep) (currentStepId : String) : Option String :=
  match steps.findIdx? (fun s => s.id == currentStepId) with
  | none => none
  | some i =>
      if i == steps.length - 1 then none
      else (steps.get? (i + 1)).map (fun s => s.id)

/-- The navigation-relevant slice of the `useWizardStore` zustand state
(`wizard`, `currentStep`, `stepHistory`).  The wizard is collapsed to its
step list; session persistence (`runtimeApi.updateSession`) is an external
HTTP effect and is not modelled. -/
structure WizardStore where
  wizard : Option (List WizardStep)
  currentStep : Option String
  stepHistory : List String

/-- Model of `goToStep`: a falsy current step (null or `''`) is a first-step load;
otherwise push the previous current step onto history. -/
def goToStep (st : WizardStore) (stepId : String) : WizardStore :=
  match st.currentStep with
  | none => { st with currentStep := some stepId }
  | some c =>
      if c == "" then { st with currentStep := some stepId }
      else { st with currentStep := some stepId, stepHistory := st.stepHistory ++ [ c ] }

/-- Model of `goNext`: no-op without a wizard or a truthy current step.
The source's `if (!nextStepId) { ... return; }` is a JS falsiness check,
taken both when `getNextStepIdLinear` returns `null` and when it returns
the empty string (a step declared with id `""`): in either case the store
is left unchanged — on the last step the branch only carries a
`TODO: Call onComplete callback` comment.  Otherwise navigate via
`goToStep` (the best-effort `updateSession` call is external). -/
def goNext (st : WizardStore) : WizardStore :=
  match st.wizard, st.currentStep with
  | some steps, some c =>
      if c == "" then st
      else
        match getNextStepIdLinear steps c with
        | none => st
        | some nextStepId => if nextStepId == "" then st else goToStep st nextStepId
  | _, _ => st

/-- Model of `goBack`: no-op on empty history, else pop the last history entry into
`currentStep`. -/
def goBack (st : WizardStore) : WizardStore :=
  match st.stepHistory.getLast? with
  | none => st
  | some previousStep =>
      { st with currentStep := some previousStep, stepHistory := st.stepHistory.dropLast }

/-- A hook state patch (`runtime/hooks/HookExecutor.ts`, `StateUpdate`). -/
structure StateUpdate where
  path : String
  value : JsonValue

/-- Model of `applyStateUpdates` from the wizard store: fold the batch over the
session state with `setJsonPath`, sequentially in list order (a thrown
path error propagates out of the batch). -/
def applyStateUpdates (st : JsonValue) : List StateUpdate → Except String JsonValue
  | [] => .ok st
  | u :: rest =>
      match setJsonPath st u.path u.value with
      | .error e => .error e
      | .ok st2 => applyStateUpdates st2 rest

/-- Spec-side reading of the batch application, for the refinement claim:
"folding the single-path set operation over the patch list sequentially in
list order starting from the current session state". -/
def foldSetSpec (st : JsonValue) (updates : List StateUpdate) : Except String JsonValue :=
  updates.foldlM (fun s u => setJsonPath s u.path u.value) st

/-- Model of `parsePageRef` from `runtime/loaders/pageLoader.ts`: split on `@`; any
split arity other than two is the `InvalidPageRef` error. -/
def parsePageRef (pageRef : String) : Except String (String × String) :=
  match splitOnChar '@' pageRef.data with
  | [ pageKey, version ] => .ok (pageKey, version)
  | _ => .error "Invalid pageRef format"

/-! ### Publish pipeline (modelled from the spec)

The server-side DefinitionStore/PublishPipeline (the FastAPI service) is
not among the sources; only its HTTP clients and documentation are.  The
version-assignment contract is therefore modelled from the spec. -/

/-- Modelled from the spec: a published definition row for one logical
key — immutable `version` tag (`vN` is carried as the number `N`), the
validated `body`, and the content `checksum` computed at publish time and
"never recomputed thereafter".  (`created_by`/timestamps are metadata the
claims do not touch.) -/
structure PublishedRow where
  version : Nat
  body : JsonValue
  checksum : String

/-- Modelled from the spec: the current maximum published version number
of a key, `0` when none exist. -/
def maxPublishedVersion (rows : List PublishedRow) : Nat :=
  rows.foldl (fun m r => max m r.version) 0

/-- Modelled from the spec: `createNextPublishedVersion` — "computes the
next version number as one greater than the current maximum published
version (starting at 1 if none exist), inserts a new immutable row".
Returns the assigned version and the appended row list (append-only). -/
def createNextPublishedVersion (rows : List PublishedRow) (body : JsonValue)
    (checksum : String) : Nat × List PublishedRow :=
  let v := maxPublishedVersion rows + 1
  (v, rows ++ [ { version := v, body := body, checksum := checksum } ])

/-- Modelled from the spec: `getPublished(kind, key, version)` for one
key — the row carrying the requested version tag. -/
def getPublished (rows : List PublishedRow) (v : Nat) : Option PublishedRow :=
  rows.find? (fun r => r.version == v)

/-! ### Heap-level rendering of `setJsonPath`

The no-mutation claim is about JavaScript object identity, so the `set`
algorithm is replayed here over an explicit heap: plain objects live at
numeric addresses, property slots hold either a primitive or a reference,
and `{...x}` is a shallow slot copy at a fresh address.  Fresh addresses
are allocated from a counter `next`. -/

/-- A primitive slot value (everything `typeof x !== 'object'` except
functions, plus `null`, which JS counts as `'object'`). -/
inductive Prim where
  | null
  | undefined
  | bool (b : Bool)
  | num (n : Int)
  | str (s : String)

/-- A property slot: a primitive or a reference to a heap node. -/
inductive HVal where
  | prim (p : Prim)
  | ref (a : Nat)

/-- A heap node: one plain object's own enumerable properties. -/
abbrev HNode := List (String × HVal)

/-- The heap: an address-to-node store and the next fresh address. -/
structure Heap where
  store : List (Nat × HNode)
  next : Nat

/-- Read the node at an address (a dangling address reads as `{}`). -/
def Heap.get (h : Heap) (a : Nat) : HNode :=
  (lookupKV h.store a).getD []

/-- Overwrite the node at an address. -/
def Heap.write (h : Heap) (a : Nat) (n : HNode) : Heap :=
  ⟨insertKV h.store a n, h.next⟩

/-- Allocate a fresh address for a node. -/
def Heap.alloc (h : Heap) (n : HNode) : Nat × Heap :=
  (h.next, ⟨h.store ++ [ (h.next, n) ], h.next + 1⟩)

/-- The `setJsonPath` loop over the heap.  At each intermediate segment
the child slot is resolved: a reference is spread (slots copied, children
shared), anything else — absent key, `undefined`, a primitive, or `null`
(whose spread is also `{}`) — starts from `{}`; the copy is placed at a
fresh address, linked into the current node, and the walk descends into
it.  The final segment is a plain slot assignment. -/
def setLoopH (h : Heap) (cur : Nat) : List String → HVal → Heap
  | [], _ => h
  | [ last ], v => h.write cur (insertKV (h.get cur) last v)
  | part :: p2 :: rest, v =>
      let curNode := h.get cur
      let childNode : HNode :=
        match lookupKV curNode part with
        | some (.ref b) => h.get b
        | _ => []
      let alloc := h.alloc childNode
      let h2 := alloc.2.write cur (insertKV curNode part (.ref alloc.1))
      setLoopH h2 alloc.1 (p2 :: rest) v

/-- Model of `setJsonPath` over the heap: the `''`/`'$'` short-circuit returns the
value with the heap untouched; otherwise validate, shallow-copy the root
(`const result = {...obj}`) to a fresh address and run the loop. -/
def setJsonPathHeap (h : Heap) (root : Nat) (path : String) (v : HVal) :
    Except String (HVal × Heap) :=
  if path == "" || path == "$" then .ok (v, h)
  else
    match validatePath path with
    | .error e => .error e
    | .ok _ =>
        let alloc := h.alloc (h.get root)
        .ok (.ref alloc.1, setLoopH alloc.2 alloc.1 (pathParts path) v)

/-- A slot is address-closed below `next`. -/
def slotOkB (next : Nat) : HVal → Bool
  | .prim _ => true
  | .ref a => decide (a < next)

/-- Heap well-formedness: every stored address and every reference held in
a stored node lies below the allocation counter. -/
def heapWFb (h : Heap) : Bool :=
  h.store.all (fun e => decide (e.1 < h.next) && e.2.all (fun s => slotOkB h.next s.2))

/-- Read a primitive slot back as a `JsonValue`. -/
def primToJson : Prim → JsonValue
  | .null => .null
  | .undefined => .undefined
  | .bool b => .bool b
  | .num n => .num n
  | .str s => .str s

/-- Fuel-bounded structural readback of a slot: the observation under
which "structurally equal before and after" is stated. -/
def readHV (h : Heap) : Nat → HVal → JsonValue
  | _, .prim p => primToJson p
  | 0, .ref _ => .undefined
  | fuel + 1, .ref a => .obj ((h.get a).map (fun s => (s.1, readHV h fuel s.2)))

/-! ## Helper lemmas -/

theorem lookupKV_insertKV_self {α β : Type} [DecidableEq α] (m : List (α × β)) (k : α) (v : β) :
    lookupKV (insertKV m k v) k = some v := by
  induction m with
  | nil => simp [insertKV, lookupKV]
  | cons e rest ih =>
    by_cases hk : e.1 = k
    · simp [insertKV, lookupKV, hk]
    · simp [insertKV, lookupKV, hk, ih]

theorem lookupKV_insertKV_ne {α β : Type} [DecidableEq α] (m : List (α × β)) (k k' : α) (v : β)
    (h : k' ≠ k) : lookupKV (insertKV m k v) k' = lookupKV m k' := by
  have hs : k ≠ k' := fun h' => h h'.symm
  induction m with
  | nil => simp [insertKV, lookupKV, hs]
  | cons e rest ih =>
    by_cases hk : e.1 = k
    · simp [insertKV, lookupKV, hk, hs]
    · by_cases he : e.1 = k'
      · simp [insertKV, lookupKV, hk, he, h]
      · simp [insertKV, lookupKV, hk, he, ih]

theorem insertKV_insertKV_self {α β : Type} [DecidableEq α] (m : List (α × β)) (k : α) (a b : β) :
    insertKV (insertKV m k a) k b = insertKV m k b := by
  induction m with
  | nil => simp [insertKV]
  | cons e rest ih =>
    by_cases hk : e.1 = k
    · simp [insertKV, hk]
    · simp [insertKV, hk, ih]

theorem lookupKV_append_left {α β : Type} [DecidableEq α] (l m : List (α × β)) (k : α) (v : β)
    (h : lookupKV l k = some v) : lookupKV (l ++ m) k = some v := by
  induction l with
  | nil => simp [lookupKV] at h
  | cons e rest ih =>
    by_cases he : e.1 = k
    · simp only [lookupKV, if_pos he] at h
      simp [lookupKV, he, h]
    · simp only [lookupKV, if_neg he] at h
      simp [lookupKV, he, ih h]

theorem lookupKV_append_right {α β : Type} [DecidableEq α] (l m : List (α × β)) (k : α)
    (h : lookupKV l k = none) : lookupKV (l ++ m) k = lookupKV m k := by
  induction l with
  | nil => simp
  | cons e rest ih =>
    by_cases he : e.1 = k
    · simp [lookupKV, he] at h
    · simp only [lookupKV, if_neg he] at h
      simp [lookupKV, he, ih h]

theorem lookupKV_mem {α β : Type} [DecidableEq α] (l : List (α × β)) (k : α) (v : β)
    (h : lookupKV l k = some v) : (k, v) ∈ l := by
  induction l with
  | nil => simp [lookupKV] at h
  | cons e rest ih =>
    by_cases he : e.1 = k
    · simp only [lookupKV, if_pos he] at h
      have : e = (k, v) := by
        cases e
        simp_all
      simp [this]
    · simp only [lookupKV, if_neg he] at h
      exact List.mem_cons_of_mem _ (ih h)

theorem splitOnAux_ne_nil (sep : Char) (s acc : List Char) : splitOnAux sep s acc ≠ [] := by
  induction s generalizing acc with
  | nil => simp [splitOnAux]
  | cons c rest ih =>
    by_cases hc : (c == sep) = true
    · simp [splitOnAux, hc]
    · simp only [splitOnAux, hc, if_false, Bool.false_eq_true]
      exact ih _

theorem pathParts_ne_nil (path : String) : pathParts path ≠ [] := by
  unfold pathParts splitOnChar
  intro h
  exact splitOnAux_ne_nil '.' (stripDollar path) [] (List.map_eq_nil_iff.mp h)

/-- Reading back along the just-written segments returns the written
value: the core of the set-then-get roundtrip, by induction on the
segment list. -/
theorem getParts_setParts : ∀ (parts : List String), parts ≠ [] →
    ∀ (fs : List (String × JsonValue)) (v : JsonValue),
      getParts (.obj (setParts fs parts v)) parts = v := by
  intro parts
  induction parts with
  | nil => intro h; exact absurd rfl h
  | cons a tl ih =>
    intro _ fs v
    cases tl with
    | nil =>
      simp [setParts, getParts, isNullOrUndefined, jsGetProp, lookupKV_insertKV_self]
    | cons b rest =>
      have hrec := ih (by simp) (childFields fs a) v
      simpa [setParts, getParts, isNullOrUndefined, jsGetProp, lookupKV_insertKV_self] using hrec

/-- Shared set-then-get lemma at the `Except` level, used by the
roundtrip and last-writer-wins results. -/
theorem setJsonPath_getJsonPath (o : JsonValue) (p : String) (v : JsonValue) (t' : JsonValue)
    (hval : validatePath p = .ok ()) (hset : setJsonPath o p v = .ok t') :
    getJsonPath t' p = .ok v := by
  by_cases hp : (p == "" || p == "$") = true
  · simp only [setJsonPath, hp, if_true, Except.ok.injEq] at hset
    simp [getJsonPath, hp, hset]
  · simp only [setJsonPath, hp, if_false, Bool.false_eq_true, hval, Except.ok.injEq] at hset
    simp only [getJsonPath, hp, if_false, Bool.false_eq_true, hval, Except.ok.injEq]
    rw [← hset]
    exact getParts_setParts (pathParts p) (pathParts_ne_nil p) (spreadFields o) v

/-! ## Claim theorems -/

/-- C2: for every tree `o`, path `p` accepted by `validatePath`, and value
`v`, getting `p` from the tree produced by `set o p v` returns exactly
`v` — including when intermediate nodes along `p` were missing or
non-objects in `o` (the set loop creates or overwrites them as empty
objects). -/
theorem c2_set_get_roundtrip (o : JsonValue) (p : String) (v : JsonValue) (t' : JsonValue)
    (hval : validatePath p = .ok ()) (hset : setJsonPath o p v = .ok t') :
    getJsonPath t' p = .ok v :=
  setJsonPath_getJsonPath o p v t' hval hset

/-- Witness for C2 at a concrete tree whose intermediate node `a` is a
non-object (the string `"x"`), which `set` overwrites with `{}`. -/
theorem c2_set_get_roundtrip_witness :
    validatePath "$.a.b" = .ok () ∧
    setJsonPath (.obj [ ("a", .str "x") ]) "$.a.b" (.num 7) =
      .ok (.obj [ ("a", .obj [ ("b", .num 7) ]) ]) ∧
    getJsonPath (.obj [ ("a", .obj [ ("b", .num 7) ]) ]) "$.a.b" = .ok (.num 7) :=
  ⟨rfl, rfl, c2_set_get_roundtrip (.obj [ ("a", .str "x") ]) "$.a.b" (.num 7) _ rfl rfl⟩

/-- C5: compound `and` over `[A, B]` evaluates to the conjunction of the
children, `or` to the disjunction, and any other `logic` value evaluates
to `false`. -/
theorem c5_compound_logic (rt : String → Option (String → Bool))
    (data : List (String × JsonValue)) (A B : Condition) (logic : String)
    (conds : List Condition) (hand : logic ≠ "and") (hor : logic ≠ "or") :
    evaluateCondition rt (.compound "and" [ A, B ]) data =
      (evaluateCondition rt A data && evaluateCondition rt B data) ∧
    evaluateCondition rt (.compound "or" [ A, B ]) data =
      (evaluateCondition rt A data || evaluateCondition rt B data) ∧
    evaluateCondition rt (.compound logic conds) data = false := by
  refine ⟨?_, ?_, ?_⟩
  · simp [evaluateCondition, evaluateCompoundCondition, evalConditionList]
  · simp [evaluateCondition, evaluateCompoundCondition, evalConditionList]
  · simp [evaluateCondition, evaluateCompoundCondition, hand, hor]

/-- Witness for C5 at concrete children and the unrecognized logic value
`"xor"`. -/
theorem c5_compound_logic_witness :
    evaluateCondition (fun _ => none)
        (.compound "and" [ .simple "f" "empty" .null, .simple "f" "notEmpty" .null ]) [] =
      (evaluateCondition (fun _ => none) (.simple "f" "empty" .null) [] &&
        evaluateCondition (fun _ => none) (.simple "f" "notEmpty" .null) []) ∧
    evaluateCondition (fun _ => none)
        (.compound "or" [ .simple "f" "empty" .null, .simple "f" "notEmpty" .null ]) [] =
      (evaluateCondition (fun _ => none) (.simple "f" "empty" .null) [] ||
        evaluateCondition (fun _ => none) (.simple "f" "notEmpty" .null) []) ∧
    evaluateCondition (fun _ => none) (.compound "xor" [ ]) [] = false :=
  c5_compound_logic (fun _ => none) [] (.simple "f" "empty" .null)
    (.simple "f" "notEmpty" .null) "xor" [] (by decide) (by decide)

/-- C6: each numeric operator (`gt`, `gte`, `lt`, `lte`) returns the
numeric comparison exactly when both the resolved field value and the
comparison value are numbers and `false` otherwise; in particular `gt 5`
over `{a:{b:10}}` is `true` and over `{a:{b:"x"}}` is `false`. -/
theorem c6_numeric_operators (rt : String → Option (String → Bool)) (f : String)
    (v : JsonValue) (data : List (String × JsonValue)) :
    (evaluateSimpleCondition rt f "gt" v data =
      match getByPath data f, v with
      | .num a, .num b => decide (a > b)
      | _, _ => false) ∧
    (evaluateSimpleCondition rt f "gte" v data =
      match getByPath data f, v with
      | .num a, .num b => decide (a ≥ b)
      | _, _ => false) ∧
    (evaluateSimpleCondition rt f "lt" v data =
      match getByPath data f, v with
      | .num a, .num b => decide (a < b)
      | _, _ => false) ∧
    (evaluateSimpleCondition rt f "lte" v data =
      match getByPath data f, v with
      | .num a, .num b => decide (a ≤ b)
      | _, _ => false) ∧
    evaluateCondition rt (.simple "a.b" "gt" (.num 5))
      [ ("a", .obj [ ("b", .num 10) ]) ] = true ∧
    evaluateCondition rt (.simple "a.b" "gt" (.num 5))
      [ ("a", .obj [ ("b", .str "x") ]) ] = false := by
  refine ⟨rfl, rfl, rfl, rfl, ?_, ?_⟩
  · simp only [evaluateCondition]
    rfl
  · simp only [evaluateCondition]
    rfl

/-- C7: on a successful advance (truthy current and next step ids — the
source checks both with JS falsiness) the previous current step is pushed
onto history and the next step in declaration order becomes current;
`goBack` pops the last history entry into the current step; and the
concrete three-step scenario `s1 → s2 → s3 → back to s2 → s3` produces
exactly the claimed step/history states. -/
theorem c7_wizard_navigation :
    (∀ (st : WizardStore) (steps : List WizardStep) (c nextId : String),
        st.wizard = some steps → st.currentStep = some c → c ≠ "" →
        getNextStepIdLinear steps c = some nextId → nextId ≠ "" →
        goNext st = { st with currentStep := some nextId,
                              stepHistory := st.stepHistory ++ [ c ] }) ∧
    (∀ (st : WizardStore) (prev : String),
        st.stepHistory.getLast? = some prev →
        goBack st = { st with currentStep := some prev,
                              stepHistory := st.stepHistory.dropLast }) ∧
    goNext ⟨some [ ⟨"s1"⟩, ⟨"s2"⟩, ⟨"s3"⟩ ], some "s1", []⟩ =
      ⟨some [ ⟨"s1"⟩, ⟨"s2"⟩, ⟨"s3"⟩ ], some "s2", [ "s1" ]⟩ ∧
    goNext ⟨some [ ⟨"s1"⟩, ⟨"s2"⟩, ⟨"s3"⟩ ], some "s2", [ "s1" ]⟩ =
      ⟨some [ ⟨"s1"⟩, ⟨"s2"⟩, ⟨"s3"⟩ ], some "s3", [ "s1", "s2" ]⟩ ∧
    goBack ⟨some [ ⟨"s1"⟩, ⟨"s2"⟩, ⟨"s3"⟩ ], some "s3", [ "s1", "s2" ]⟩ =
      ⟨some [ ⟨"s1"⟩, ⟨"s2"⟩, ⟨"s3"⟩ ], some "s2", [ "s1" ]⟩ ∧
    goNext ⟨some [ ⟨"s1"⟩, ⟨"s2"⟩, ⟨"s3"⟩ ], some "s2", [ "s1" ]⟩ =
      ⟨some [ ⟨"s1"⟩, ⟨"s2"⟩, ⟨"s3"⟩ ], some "s3", [ "s1", "s2" ]⟩ := by
  refine ⟨?_, ?_, rfl, rfl, rfl, rfl⟩
  · rintro ⟨w, cs, hist⟩ steps c nextId hw hc hcne hnext hnne
    simp only at hw hc
    subst hw hc
    have hcb : (c == "") = false := by simpa using hcne
    have hnb : (nextId == "") = false := by simpa using hnne
    simp [goNext, goToStep, hcb, hnb, hnext]
  · rintro ⟨w, cs, hist⟩ prev hlast
    simp only at hlast
    simp [goBack, hlast]

/-- Witness for C7, applying the general advance and back laws at the
first scenario state. -/
theorem c7_wizard_navigation_witness :
    goNext ⟨some [ ⟨"s1"⟩, ⟨"s2"⟩, ⟨"s3"⟩ ], some "s1", []⟩ =
      ⟨some [ ⟨"s1"⟩, ⟨"s2"⟩, ⟨"s3"⟩ ], some "s2", [ "s1" ]⟩ ∧
    goBack ⟨some [ ⟨"s1"⟩, ⟨"s2"⟩, ⟨"s3"⟩ ], some "s2", [ "s1" ]⟩ =
      ⟨some [ ⟨"s1"⟩, ⟨"s2"⟩, ⟨"s3"⟩ ], some "s1", []⟩ :=
  ⟨c7_wizard_navigation.1 _ [ ⟨"s1"⟩, ⟨"s2"⟩, ⟨"s3"⟩ ] "s1" "s2" rfl rfl (by decide) rfl
     (by decide),
   c7_wizard_navigation.2.1 _ "s1" rfl⟩

/-- C8, evaluated at the failing input: `goNext` on the last step of the
three-step wizard leaves the store unchanged — the source's last-step
branch is a `TODO: Call onComplete callback` stub, so no completion
transition (and no terminal status at all) exists in the store. -/
theorem c8_advance_last_step_unchanged :
    goNext ⟨some [ ⟨"s1"⟩, ⟨"s2"⟩, ⟨"s3"⟩ ], some "s3", [ "s1", "s2" ]⟩ =
      ⟨some [ ⟨"s1"⟩, ⟨"s2"⟩, ⟨"s3"⟩ ], some "s3", [ "s1", "s2" ]⟩ := rfl

/-- Splitting a separator-free string produces the single accumulated
piece. -/
theorem splitOnAux_no_sep (sep : Char) : ∀ (s : List Char), ¬ sep ∈ s →
    ∀ acc, splitOnAux sep s acc = [ acc ++ s ] := by
  intro s
  induction s with
  | nil => intro _ acc; simp [splitOnAux]
  | cons c rest ih =>
    intro hs acc
    have hc : (c == sep) = false := by
      simp only [beq_eq_false_iff_ne, ne_eq]
      intro h
      exact hs (h ▸ List.mem_cons_self c rest)
    simp only [splitOnAux, hc, if_false, Bool.false_eq_true]
    rw [ih (fun hm => hs (List.mem_cons_of_mem _ hm)) (acc ++ [ c ])]
    simp

/-- Splitting at the first separator cuts off the accumulated piece. -/
theorem splitOnAux_at_sep (sep : Char) : ∀ (k : List Char), ¬ sep ∈ k →
    ∀ (rest acc : List Char),
      splitOnAux sep (k ++ sep :: rest) acc = (acc ++ k) :: splitOnAux sep rest [] := by
  intro k
  induction k with
  | nil => intro _ rest acc; simp [splitOnAux]
  | cons c k2 ih =>
    intro hk rest acc
    have hc : (c == sep) = false := by
      simp only [beq_eq_false_iff_ne, ne_eq]
      intro h
      exact hk (h ▸ List.mem_cons_self c k2)
    simp only [List.cons_append, splitOnAux, hc, if_false, Bool.false_eq_true, List.append_eq]
    rw [ih (fun hm => hk (List.mem_cons_of_mem _ hm)) rest (acc ++ [ c ])]
    simp

/-- The number of split pieces is one more than the separator count. -/
theorem splitOnAux_length (sep : Char) : ∀ (s acc : List Char),
    (splitOnAux sep s acc).length = s.count sep + 1 := by
  intro s
  induction s with
  | nil => intro acc; simp [splitOnAux, List.count_nil]
  | cons c rest ih =>
    intro acc
    by_cases hc : (c == sep) = true
    · simp only [splitOnAux, hc, if_true, List.length_cons, ih, List.count_cons]
      try simp [hc]
      try omega
    · have hc' : (c == sep) = false := by simpa using hc
      simp only [splitOnAux, hc', if_false, Bool.false_eq_true, ih, List.count_cons]
      try simp [hc']
      try omega

/-- A split arity other than two lands in the error arm of
`parsePageRef`. -/
theorem parsePageRef_error_of_length (s : String)
    (h : (splitOnChar '@' s.data).length ≠ 2) : ∃ e, parsePageRef s = .error e := by
  unfold parsePageRef
  cases hsp : splitOnChar '@' s.data with
  | nil => exact ⟨_, rfl⟩
  | cons a t =>
    cases t with
    | nil => exact ⟨_, rfl⟩
    | cons b t2 =>
      cases t2 with
      | nil => rw [hsp] at h; simp at h
      | cons c t3 => exact ⟨_, rfl⟩

/-- C9: a well-formed reference `<page_key>@<version>` (one `@`, none in
either side) parses into exactly that pair, and any string whose `@`
count differs from one fails with the invalid-format error. -/
theorem c9_parsePageRef (k v : List Char) (s : String)
    (hk : ¬ '@' ∈ k) (hv : ¬ '@' ∈ v) (hs : s.data.count '@' ≠ 1) :
    parsePageRef (String.mk (k ++ '@' :: v)) = .ok (String.mk k, String.mk v) ∧
    ∃ e, parsePageRef s = .error e := by
  constructor
  · unfold parsePageRef splitOnChar
    rw [show (String.mk (k ++ '@' :: v)).data = k ++ '@' :: v from rfl]
    rw [splitOnAux_at_sep '@' k hk v []]
    rw [splitOnAux_no_sep '@' v hv []]
    simp
  · apply parsePageRef_error_of_length
    unfold splitOnChar
    rw [List.length_map, splitOnAux_length]
    omega

/-- Witness for C9: `p@v1` parses into `(p, v1)`; `a@b@c` is rejected. -/
theorem c9_parsePageRef_witness :
    parsePageRef (String.mk [ 'p', '@', 'v', '1' ]) =
      .ok (String.mk [ 'p' ], String.mk [ 'v', '1' ]) ∧
    ∃ e, parsePageRef "a@b@c" = .error e :=
  c9_parsePageRef [ 'p' ] [ 'v', '1' ] "a@b@c" (by decide) (by decide) (by decide)

/-- The fold computing the maximum version dominates its seed. -/
theorem maxVersion_foldl_init_le (rows : List PublishedRow) :
    ∀ init : Nat, init ≤ rows.foldl (fun m r => max m r.version) init := by
  induction rows with
  | nil => intro init; exact Nat.le_refl _
  | cons r rest ih =>
    intro init
    exact Nat.le_trans (Nat.le_max_left init r.version) (ih _)

/-- Every stored row's version is bounded by the fold maximum. -/
theorem version_le_maxVersion_foldl (rows : List PublishedRow) :
    ∀ (init : Nat) (r : PublishedRow), r ∈ rows →
      r.version ≤ rows.foldl (fun m r => max m r.version) init := by
  induction rows with
  | nil => intro _ r hr; exact absurd hr (List.not_mem_nil r)
  | cons e rest ih =>
    intro init r hr
    rcases List.mem_cons.mp hr with he | hm
    · subst he
      exact Nat.le_trans (Nat.le_max_right init r.version) (maxVersion_foldl_init_le rest _)
    · exact ih _ r hm

/-- C4: starting from any published history, two successive publishes are
assigned strictly increasing version numbers; after the second publish,
the first version still resolves to exactly the row recorded at the first
publish (original body and checksum — rows are append-only and never
mutated); and from an empty history the assigned tags are `v1` then
`v2`. -/
theorem c4_publish_append_only (hash : JsonValue → String) (rows : List PublishedRow)
    (b1 b2 : JsonValue) :
    (createNextPublishedVersion rows b1 (hash b1)).1 <
      (createNextPublishedVersion
        (createNextPublishedVersion rows b1 (hash b1)).2 b2 (hash b2)).1 ∧
    getPublished
        (createNextPublishedVersion
          (createNextPublishedVersion rows b1 (hash b1)).2 b2 (hash b2)).2
        (createNextPublishedVersion rows b1 (hash b1)).1 =
      some { version := (createNextPublishedVersion rows b1 (hash b1)).1,
             body := b1, checksum := hash b1 } ∧
    (createNextPublishedVersion [] b1 (hash b1)).1 = 1 ∧
    (createNextPublishedVersion
      (createNextPublishedVersion [] b1 (hash b1)).2 b2 (hash b2)).1 = 2 := by
  have hmax1 : ∀ r ∈ rows, r.version ≤ maxPublishedVersion rows := by
    intro r hr
    exact version_le_maxVersion_foldl rows 0 r hr
  refine ⟨?_, ?_, by simp [createNextPublishedVersion, maxPublishedVersion], ?_⟩
  · simp only [createNextPublishedVersion, maxPublishedVersion, List.foldl_append,
      List.foldl_cons, List.foldl_nil]
    omega
  · simp only [createNextPublishedVersion, getPublished, maxPublishedVersion]
    rw [List.append_assoc, List.find?_append]
    have hnone : rows.find?
        (fun r => r.version == rows.foldl (fun m r => max m r.version) 0 + 1) = none := by
      rw [List.find?_eq_none]
      intro r hr
      simp only [beq_iff_eq]
      have := version_le_maxVersion_foldl rows 0 r hr
      omega
    rw [hnone]
    simp
  · simp [createNextPublishedVersion, maxPublishedVersion]

/-- Decomposing the batch loop at its final patch. -/
theorem applyStateUpdates_append_last (u : StateUpdate) :
    ∀ (us : List StateUpdate) (st t' : JsonValue),
      applyStateUpdates st (us ++ [ u ]) = .ok t' →
      ∃ mid, applyStateUpdates st us = .ok mid ∧ setJsonPath mid u.path u.value = .ok t' := by
  intro us
  induction us with
  | nil =>
    intro st t' h
    simp only [List.nil_append, applyStateUpdates] at h
    cases hset : setJsonPath st u.path u.value with
    | error e => rw [hset] at h; exact absurd h (by simp)
    | ok st2 =>
      rw [hset] at h
      simp only [applyStateUpdates, Except.ok.injEq] at h
      exact ⟨st, rfl, h ▸ hset⟩
  | cons w rest ih =>
    intro st t' h
    simp only [List.cons_append, applyStateUpdates] at h
    cases hset : setJsonPath st w.path w.value with
    | error e => rw [hset] at h; exact absurd h (by simp)
    | ok st2 =>
      rw [hset] at h
      obtain ⟨mid, hmid, hlast⟩ := ih st2 t' h
      exact ⟨mid, by simp [applyStateUpdates, hset, hmid], hlast⟩

/-- C10: the batched hook-patch application is the sequential fold of the
single-path set in list order — an empty batch leaves the state
unchanged, the loop equals the fold, and the value read back at a path is
the one written by the batch's last patch to that path (last writer
wins). -/
theorem c10_apply_batch_is_fold :
    (∀ st, applyStateUpdates st [] = .ok st) ∧
    (∀ st us, applyStateUpdates st us = foldSetSpec st us) ∧
    (∀ (st : JsonValue) (us : List StateUpdate) (p : String) (v t' : JsonValue),
        validatePath p = .ok () →
        applyStateUpdates st (us ++ [ ⟨p, v⟩ ]) = .ok t' →
        getJsonPath t' p = .ok v) := by
  refine ⟨fun st => rfl, ?_, ?_⟩
  · intro st us
    induction us generalizing st with
    | nil => rfl
    | cons u rest ih =>
      simp only [applyStateUpdates, foldSetSpec, List.foldlM_cons]
      cases hset : setJsonPath st u.path u.value with
      | error e => rfl
      | ok st2 => exact ih st2
  · intro st us p v t' hval h
    obtain ⟨mid, _, hlast⟩ := applyStateUpdates_append_last ⟨p, v⟩ us st t' h
    exact setJsonPath_getJsonPath mid p v t' hval hlast

/-- Witness for C10: applying two patches to the same path yields the
later value on readback. -/
theorem c10_apply_batch_is_fold_witness :
    getJsonPath (.obj [ ("a", .num 2) ]) "$.a" = .ok (.num 2) :=
  c10_apply_batch_is_fold.2.2 (.obj []) [ ⟨"$.a", .num 1⟩ ] "$.a" (.num 2)
    (.obj [ ("a", .num 2) ]) rfl rfl

/-- A dangerous segment, parent traversal, or wildcard makes
`validatePath` throw (whichever check fires first). -/
theorem validatePath_error_of_dangerous (path : String)
    (h : (∃ part ∈ pathParts path, part ∈ dangerousKeys) ∨
         listContainsSeq [ '.', '.' ] path.data = true ∨ '*' ∈ path.data) :
    ∃ e, validatePath path = .error e := by
  unfold validatePath
  by_cases h1 : (path != "$" && !(listStartsWith [ '$', '.' ] path.data)) = true
  · rw [if_pos h1]
    exact ⟨_, rfl⟩
  · rw [if_neg h1]
    by_cases h2 : hasBadChar path = true
    · rw [if_pos h2]
      exact ⟨_, rfl⟩
    · rw [if_neg h2]
      by_cases h3 : listContainsSeq [ '.', '.' ] path.data = true
      · rw [if_pos h3]
        exact ⟨_, rfl⟩
      · rw [if_neg h3]
        rcases h with hd | hdd | hstar
        · obtain ⟨part, hmem, hdk⟩ := hd
          have : (pathParts path).any (fun part => dangerousKeys.contains part) = true := by
            refine List.any_eq_true.mpr ⟨part, hmem, ?_⟩
            exact List.elem_eq_true_of_mem hdk
          rw [if_pos this]
          exact ⟨_, rfl⟩
        · exact absurd hdd h3
        · exfalso
          apply h2
          exact List.any_eq_true.mpr ⟨'*', hstar, by decide⟩

/-- C1 (amended): the runtime resolver (`getJsonPath`/`setJsonPath`)
unconditionally rejects every path containing a reserved segment
(`__proto__`, `constructor`, `prototype`), parent traversal `..`, or a
wildcard `*` — both entry points return an error and perform no read or
write, for every tree and value. -/
theorem c1_resolver_rejects_dangerous_paths (path : String)
    (h : (∃ part ∈ pathParts path, part ∈ dangerousKeys) ∨
         listContainsSeq [ '.', '.' ] path.data = true ∨ '*' ∈ path.data)
    (o v : JsonValue) :
    (∃ e, getJsonPath o path = .error e) ∧ (∃ e, setJsonPath o path v = .error e) := by
  obtain ⟨e, he⟩ := validatePath_error_of_dangerous path h
  have hne : (path == "" || path == "$") = false := by
    rcases hpe : (path == "" || path == "$") with _ | _
    · rfl
    · exfalso
      rcases Bool.or_eq_true_iff.mp hpe with hp | hp
      · have : path = "" := by simpa using hp
        subst this
        rcases h with hd | hdd | hstar
        · revert hd
          decide
        · revert hdd
          decide
        · revert hstar
          decide
      · have : path = "$" := by simpa using hp
        subst this
        rw [show validatePath "$" = .ok () from rfl] at he
        exact absurd he (by simp)
  constructor
  · exact ⟨e, by simp [getJsonPath, hne, he]⟩
  · exact ⟨e, by simp [setJsonPath, hne, he]⟩

/-- Witness for the amended C1 at the concrete path `$.constructor.x`. -/
theorem c1_resolver_rejects_dangerous_paths_witness :
    (∃ e, getJsonPath (.obj []) "$.constructor.x" = .error e) ∧
    (∃ e, setJsonPath (.obj []) "$.constructor.x" (.num 0) = .error e) :=
  c1_resolver_rejects_dangerous_paths "$.constructor.x"
    (Or.inl ⟨"constructor", by decide, by decide⟩) (.obj []) (.num 0)

/-- C1 counterexample: the SDK path helpers — also path-access entry
points, used by the condition evaluator and the form binding — perform no
rejection at all: `setByPath` writes a reserved segment and `getByPath`
reads one back, with no `InvalidPath` error (the helpers have no error
channel). -/
theorem c1_sdk_helpers_no_rejection :
    setByPath [] "prototype" (.num 1) = [ ("prototype", .num 1) ] ∧
    getByPath [ ("constructor", .num 7) ] "constructor" = .num 7 :=
  ⟨rfl, rfl⟩

theorem Heap.get_write_self (h : Heap) (a : Nat) (n : HNode) :
    (h.write a n).get a = n := by
  unfold Heap.get Heap.write
  rw [lookupKV_insertKV_self]
  rfl

theorem Heap.get_write_ne (h : Heap) (a b : Nat) (n : HNode) (hne : b ≠ a) :
    (h.write a n).get b = h.get b := by
  unfold Heap.get Heap.write
  rw [lookupKV_insertKV_ne _ _ _ _ hne]

theorem Heap.get_alloc_ne (h : Heap) (n : HNode) (b : Nat) (hne : b ≠ h.next) :
    (h.alloc n).2.get b = h.get b := by
  unfold Heap.get Heap.alloc
  cases hl : lookupKV h.store b with
  | some m => rw [lookupKV_append_left _ _ _ _ hl]
  | none =>
    rw [lookupKV_append_right _ _ _ hl]
    have hne2 : h.next ≠ b := fun heq => hne heq.symm
    simp [lookupKV, hne2]

/-- The set loop writes only the node it is standing on and nodes it
freshly allocates: every other address keeps its node, and the allocation
counter never decreases. -/
theorem setLoopH_frame : ∀ (parts : List String) (h : Heap) (cur : Nat) (v : HVal) (b : Nat),
    b < h.next → b ≠ cur →
    (setLoopH h cur parts v).get b = h.get b ∧ h.next ≤ (setLoopH h cur parts v).next := by
  intro parts
  induction parts with
  | nil => intro h cur v b _ _; exact ⟨rfl, Nat.le_refl _⟩
  | cons p0 tl ih =>
    intro h cur v b hb hbc
    cases tl with
    | nil =>
      refine ⟨Heap.get_write_ne _ _ _ _ hbc, Nat.le_refl _⟩
    | cons p1 rest =>
      have hstep : setLoopH h cur (p0 :: p1 :: rest) v =
          setLoopH ((h.alloc (match lookupKV (h.get cur) p0 with
              | some (.ref c) => h.get c
              | _ => [])).2.write cur (insertKV (h.get cur) p0 (.ref h.next)))
            h.next (p1 :: rest) v := rfl
      rw [hstep]
      have hnext2 : ((h.alloc (match lookupKV (h.get cur) p0 with
          | some (.ref c) => h.get c
          | _ => [])).2.write cur (insertKV (h.get cur) p0 (.ref h.next))).next
          = h.next + 1 := rfl
      obtain ⟨hget, hle⟩ := ih ((h.alloc (match lookupKV (h.get cur) p0 with
          | some (.ref c) => h.get c
          | _ => [])).2.write cur (insertKV (h.get cur) p0 (.ref h.next)))
        h.next v b (by rw [hnext2]; omega) (by omega)
      refine ⟨?_, ?_⟩
      · rw [hget, Heap.get_write_ne _ _ _ _ hbc, Heap.get_alloc_ne _ _ _ (by omega)]
      · rw [hnext2] at hle
        omega

/-- In a well-formed heap every slot of every readable node is
address-closed below `next`. -/
theorem heapWFb_slot (h : Heap) (hwf : heapWFb h = true) (a : Nat) :
    ∀ s ∈ h.get a, slotOkB h.next s.2 = true := by
  intro s hs
  unfold Heap.get at hs
  cases hl : lookupKV h.store a with
  | none => rw [hl] at hs; simp at hs
  | some n =>
    rw [hl] at hs
    simp only [Option.getD_some] at hs
    have hmem := lookupKV_mem _ _ _ hl
    have hall := (List.all_eq_true.mp hwf) (a, n) hmem
    simp only [Bool.and_eq_true] at hall
    exact (List.all_eq_true.mp hall.2) s hs

/-- A well-formed heap never stores a binding at the allocation
counter. -/
theorem lookupKV_store_next (h : Heap) (hwf : heapWFb h = true) :
    lookupKV h.store h.next = none := by
  cases hl : lookupKV h.store h.next with
  | none => rfl
  | some n =>
    exfalso
    have hmem := lookupKV_mem _ _ _ hl
    have hall := (List.all_eq_true.mp hwf) (h.next, n) hmem
    simp at hall

/-- For a nonempty segment list, the only change the set loop makes to
the node it starts on is at the first segment's key: every other key
keeps its exact slot (structural sharing of untouched branches). -/
theorem setLoopH_get_cur_ne (h : Heap) (cur : Nat) (v : HVal) (p0 : String)
    (tl : List String) (hcur : cur < h.next) (k : String) (hk : k ≠ p0) :
    lookupKV ((setLoopH h cur (p0 :: tl) v).get cur) k = lookupKV (h.get cur) k := by
  cases tl with
  | nil =>
    have hstep : setLoopH h cur [ p0 ] v = h.write cur (insertKV (h.get cur) p0 v) := rfl
    rw [hstep, Heap.get_write_self, lookupKV_insertKV_ne _ _ _ _ hk]
  | cons p1 rest =>
    have hstep : setLoopH h cur (p0 :: p1 :: rest) v =
        setLoopH ((h.alloc (match lookupKV (h.get cur) p0 with
            | some (.ref c) => h.get c
            | _ => [])).2.write cur (insertKV (h.get cur) p0 (.ref h.next)))
          h.next (p1 :: rest) v := rfl
    rw [hstep]
    have hframe := setLoopH_frame (p1 :: rest)
      ((h.alloc (match lookupKV (h.get cur) p0 with
          | some (.ref c) => h.get c
          | _ => [])).2.write cur (insertKV (h.get cur) p0 (.ref h.next)))
      h.next v cur (by
        show cur < h.next + 1
        omega) (by omega)
    rw [hframe.1, Heap.get_write_self, lookupKV_insertKV_ne _ _ _ _ hk]

/-- Readback is insensitive to heap changes above the old allocation
counter: two heaps that agree below `next` read every `next`-closed slot
identically. -/
theorem readHV_eq_of_agree (h h' : Heap)
    (hagree : ∀ b, b < h.next → h'.get b = h.get b) (hwf : heapWFb h = true) :
    ∀ (fuel : Nat) (hv : HVal), (∀ a, hv = .ref a → a < h.next) →
      readHV h' fuel hv = readHV h fuel hv := by
  intro fuel
  induction fuel with
  | zero =>
    intro hv _
    cases hv with
    | prim p => rfl
    | ref a => rfl
  | succ fuel ih =>
    intro hv hok
    cases hv with
    | prim p => rfl
    | ref a =>
      have ha : a < h.next := hok a rfl
      simp only [readHV, hagree a ha]
      congr 1
      apply List.map_congr_left
      intro s hs
      have hslot := heapWFb_slot h hwf a s hs
      have : readHV h' fuel s.2 = readHV h fuel s.2 := by
        apply ih
        intro c hc
        rw [hc] at hslot
        simpa [slotOkB] using hslot
      rw [this]

/-- C3: over the explicit heap, `setJsonPath` never mutates the caller's
tree — every pre-existing address keeps its node, so the input tree reads
back structurally equal at every fuel — and (for a real path) the result
is a fresh root object whose slots outside the path's first segment are
the very slots of the input root (structural sharing). -/
theorem c3_set_does_not_mutate_input (h : Heap) (root : Nat) (path : String) (v : HVal)
    (res : HVal) (h' : Heap)
    (hok : setJsonPathHeap h root path v = .ok (res, h'))
    (hwf : heapWFb h = true) (hroot : root < h.next) :
    (∀ b, b < h.next → h'.get b = h.get b) ∧
    (∀ fuel, readHV h' fuel (.ref root) = readHV h fuel (.ref root)) ∧
    ((path == "" || path == "$") = false →
      ∃ r, res = .ref r ∧
        ∀ k, k ≠ (pathParts path).headD "" →
          lookupKV (h'.get r) k = lookupKV (h.get root) k) := by
  by_cases hp : (path == "" || path == "$") = true
  · simp only [setJsonPathHeap, hp, if_true, Except.ok.injEq, Prod.mk.injEq] at hok
    obtain ⟨hres, hh⟩ := hok
    subst hh
    exact ⟨fun b _ => rfl, fun fuel => rfl, fun hfalse => absurd hp (by rw [hfalse]; simp)⟩
  · have hp' : (path == "" || path == "$") = false := by simpa using hp
    simp only [setJsonPathHeap, hp', if_false, Bool.false_eq_true] at hok
    cases hval : validatePath path with
    | error e => rw [hval] at hok; exact absurd hok (by simp)
    | ok u =>
      rw [hval] at hok
      simp only [Except.ok.injEq, Prod.mk.injEq] at hok
      obtain ⟨hres, hh⟩ := hok
      have halloc_next : (h.alloc (h.get root)).2.next = h.next + 1 := rfl
      have hglobal : ∀ b, b < h.next → h'.get b = h.get b := by
        intro b hb
        rw [← hh]
        have := setLoopH_frame (pathParts path) (h.alloc (h.get root)).2
          (h.alloc (h.get root)).1 v b (by rw [halloc_next]; omega) (by
            show b ≠ h.next
            omega)
        rw [this.1]
        exact Heap.get_alloc_ne _ _ _ (by omega)
      refine ⟨hglobal, ?_, ?_⟩
      · intro fuel
        exact readHV_eq_of_agree h h' hglobal hwf fuel (.ref root)
          (fun a ha => by cases ha; exact hroot)
      · intro _
        refine ⟨(h.alloc (h.get root)).1, hres.symm, ?_⟩
        intro k hk
        have hget_r1 : (h.alloc (h.get root)).2.get (h.alloc (h.get root)).1 = h.get root := by
          show Heap.get ⟨h.store ++ [ (h.next, h.get root) ], h.next + 1⟩ h.next = h.get root
          unfold Heap.get
          rw [lookupKV_append_right _ _ _ (lookupKV_store_next h hwf)]
          simp [lookupKV]
        cases hparts : pathParts path with
        | nil => exact absurd hparts (pathParts_ne_nil path)
        | cons p0 tl =>
          rw [hparts] at hk hh
          simp only [List.headD_cons] at hk
          rw [← hh]
          have hcur : (h.alloc (h.get root)).1 < (h.alloc (h.get root)).2.next :=
            Nat.lt_succ_self h.next
          rw [setLoopH_get_cur_ne (h.alloc (h.get root)).2 (h.alloc (h.get root)).1
            v p0 tl hcur k hk]
          rw [hget_r1]

/-- Witness for C3: a concrete two-node heap, set along `$.a.c`; the two
original addresses keep their nodes and the input readback is
unchanged. -/
theorem c3_set_does_not_mutate_input_witness :
    Heap.get ⟨[ (0, [ ("a", .ref 1) ]),
                (1, [ ("b", .prim (.num 1)) ]),
                (2, [ ("a", .ref 3) ]),
                (3, [ ("b", .prim (.num 1)), ("c", .prim .null) ]) ], 4⟩ 1 =
      Heap.get ⟨[ (0, [ ("a", .ref 1) ]), (1, [ ("b", .prim (.num 1)) ]) ], 2⟩ 1 ∧
    readHV ⟨[ (0, [ ("a", .ref 1) ]),
              (1, [ ("b", .prim (.num 1)) ]),
              (2, [ ("a", .ref 3) ]),
              (3, [ ("b", .prim (.num 1)), ("c", .prim .null) ]) ], 4⟩ 3 (.ref 0) =
      readHV ⟨[ (0, [ ("a", .ref 1) ]), (1, [ ("b", .prim (.num 1)) ]) ], 2⟩ 3 (.ref 0) := by
  have h := c3_set_does_not_mutate_input
    ⟨[ (0, [ ("a", .ref 1) ]), (1, [ ("b", .prim (.num 1)) ]) ], 2⟩ 0 "$.a.c" (.prim .null)
    (.ref 2)
    ⟨[ (0, [ ("a", .ref 1) ]),
       (1, [ ("b", .prim (.num 1)) ]),
       (2, [ ("a", .ref 3) ]),
       (3, [ ("b", .prim (.num 1)), ("c", .prim .null) ]) ], 4⟩
    rfl (by decide) (by decide)
  exact ⟨h.1 1 (by decide), h.2.1 3⟩

end VSB
